import Mathlib

/-!
Shallow embedding of the imugi visual-diff and convergence core
(`src/core/analyzer.ts`, `src/core/comparator.ts`) and proofs of the
specification claims about it.

Scores and pixel intensities are modelled as rationals (`ℚ`), the exact
idealization of JavaScript's float arithmetic on the values involved;
pixel coordinates and counts as naturals.  Buffers, wall-clock fields and
other I/O artifacts are outside the model; each definition notes what is
elided.
-/

namespace Imugi

/-! ## Data model (`src/types.ts`) -/

/-- `PatchStrategy` from `src/types.ts`. -/
inductive PatchStrategy
  | full_regen
  | surgical_patch
  deriving DecidableEq, Repr, Inhabited

/-- `StopReason` from `src/types.ts`. -/
inductive StopReason
  | success
  | max_iterations
  | timeout
  | converged
  | error
  deriving DecidableEq, Repr, Inhabited

/-- `IterationCategory` from `src/types.ts`. -/
inductive IterationCategory
  | first
  | improved
  | stalled
  | regressed
  | converged
  | achieved
  deriving DecidableEq, Repr, Inhabited

/-- Classification labels of an `AnalyzedRegion` (`src/types.ts`). -/
inductive Classification
  | color
  | spacing
  | size
  | position
  | missing
  | extra
  | font
  | unknown
  deriving DecidableEq, Repr, Inhabited

/-- Priority levels of an `AnalyzedRegion` (`src/types.ts`). -/
inductive Priority
  | high
  | medium
  | low
  deriving DecidableEq, Repr, Inhabited

/-- `DiffRegion` from `src/types.ts`.  Coordinates and sizes are naturals,
`diffIntensity` is a rational. -/
structure DiffRegion where
  x : ℕ
  y : ℕ
  width : ℕ
  height : ℕ
  diffIntensity : ℚ
  pixelCount : ℕ
  deriving DecidableEq, Repr, Inhabited

/-- One entry of `VisionAnalysis.differences` from `src/types.ts`. -/
structure VisionDifference where
  type : String
  description : String
  cssSuggestion : Option String
  deriving DecidableEq, Repr, Inhabited

/-- `VisionAnalysis` from `src/types.ts`. -/
structure VisionAnalysis where
  similarityScore : ℚ
  differences : List VisionDifference
  overallAssessment : String
  deriving DecidableEq, Repr, Inhabited

/-- `AnalyzedRegion` from `src/types.ts`. -/
structure AnalyzedRegion where
  region : DiffRegion
  classification : Classification
  priority : Priority
  description : String
  cssSuggestion : Option String
  deriving DecidableEq, Repr, Inhabited

/-- `SSIMResult` from `src/types.ts`.  `performanceMs` is wall-clock time in
the source; the model always reports `0` there. -/
structure SSIMResult where
  mssim : ℚ
  performanceMs : ℕ
  deriving DecidableEq, Repr, Inhabited

/-- `ComparisonResult` from `src/types.ts`, restricted to the fields the
scoring/analysis pipeline reads (the buffer-valued fields `pixelDiff`,
`heatmapBuffer`, `screenshotBuffer`, `cropPairs` and `designDimensions`
carry image bytes and are elided from the model). -/
structure ComparisonResult where
  ssim : SSIMResult
  diffRegions : List DiffRegion
  compositeScore : ℚ
  deriving DecidableEq, Repr, Inhabited

/-- `DiffReport` from `src/types.ts`. -/
structure DiffReport where
  overallScore : ℚ
  regionCount : ℕ
  regions : List AnalyzedRegion
  summary : String
  suggestedStrategy : PatchStrategy
  deriving DecidableEq, Repr, Inhabited

/-- `StrategyRecommendation` from `src/types.ts`; the optional TypeScript
fields `stopReason` and `rollbackTo` become `Option`s. -/
structure StrategyRecommendation where
  strategy : PatchStrategy
  reason : String
  shouldStop : Bool
  stopReason : Option StopReason := none
  shouldRollback : Bool
  rollbackTo : Option ℕ := none
  deriving DecidableEq, Repr, Inhabited

/-- `IterationRecord` from `src/types.ts`. -/
structure IterationRecord where
  iteration : ℕ
  score : ℚ
  strategy : PatchStrategy
  filesModified : List String
  elapsedMs : ℕ
  category : IterationCategory
  timestamp : ℕ
  deriving DecidableEq, Repr, Inhabited

/-- The `comparison` section of `ImugiConfig` (`src/config/schema.ts`). -/
structure ComparisonConfig where
  threshold : ℚ
  maxIterations : ℕ
  improvementThreshold : ℚ
  patchSwitchThreshold : ℚ
  deriving DecidableEq, Repr, Inhabited

/-- `ImugiConfig`, restricted to the `comparison` section used by the
convergence controller. -/
structure ImugiConfig where
  comparison : ComparisonConfig
  deriving DecidableEq, Repr, Inhabited

/-! ## `src/core/analyzer.ts` -/

/-- The `typeMap` lookup in `classifyRegion` (`analyzer.ts` lines 20-29):
an external vision label is mapped 1:1 into the classification enum, and
any other string degrades to `unknown`. -/
def classificationOfType (t : String) : Classification :=
  if t = "color" then .color
  else if t = "spacing" then .spacing
  else if t = "size" then .size
  else if t = "position" then .position
  else if t = "missing" then .missing
  else if t = "extra" then .extra
  else if t = "font" then .font
  else .unknown

/-- `classifyRegion` (`analyzer.ts` lines 15-35). -/
def classifyRegion (region : DiffRegion) (visionDiff : Option VisionDifference) :
    Classification :=
  match visionDiff with
  | some vd => classificationOfType vd.type
  | none =>
    if region.width > 200 ∨ region.height > 200 then .position
    else if region.diffIntensity > 0.5 then .color
    else .unknown

/-- `assignPriority` (`analyzer.ts` lines 37-51). -/
def assignPriority : Classification → Priority
  | .missing => .high
  | .extra => .high
  | .position => .high
  | .size => .medium
  | .spacing => .medium
  | .color => .low
  | .font => .low
  | .unknown => .low

/-- Numeric sort key `priorityOrder` used in `analyzeDifferences`
(`analyzer.ts` line 71): high ↦ 0, medium ↦ 1, low ↦ 2. -/
def priorityOrder : Priority → ℕ
  | .high => 0
  | .medium => 1
  | .low => 2

/-- The per-region mapping step of `analyzeDifferences`
(`analyzer.ts` lines 57-69): each diff region is paired with the vision
difference of the same index (`visionAnalysis?.differences[i]`), classified
and prioritized.  The numeric interpolation inside the fallback description
string is rendered with `toString`. -/
def analyzedRegions (comparison : ComparisonResult)
    (visionAnalysis : Option VisionAnalysis) : List AnalyzedRegion :=
  comparison.diffRegions.enum.map (fun p =>
    let i := p.1
    let region := p.2
    let visionDiff : Option VisionDifference :=
      visionAnalysis.bind (fun va => va.differences[i]?)
    let classification := classifyRegion region visionDiff
    { region := region
      classification := classification
      priority := assignPriority classification
      description := (visionDiff.map (·.description)).getD
        ("Difference in region at (" ++ toString region.x ++ ", " ++
          toString region.y ++ ")")
      cssSuggestion := visionDiff.bind (·.cssSuggestion) })

/-- Bool comparator corresponding to the JavaScript sort callback
`(a, b) => priorityOrder[a.priority] - priorityOrder[b.priority]`
in `analyzeDifferences` (`analyzer.ts` line 72). -/
def priorityLe (a b : AnalyzedRegion) : Bool :=
  priorityOrder a.priority ≤ priorityOrder b.priority

/-- `analyzeDifferences` (`analyzer.ts` lines 53-88).  JavaScript's
`Array.prototype.sort` is a stable sort by specification, modelled with
`List.mergeSort`. -/
def analyzeDifferences (comparison : ComparisonResult)
    (visionAnalysis : Option VisionAnalysis) : DiffReport :=
  let regions := (analyzedRegions comparison visionAnalysis).mergeSort priorityLe
  let score := (visionAnalysis.map (·.similarityScore)).getD comparison.compositeScore
  let suggestedStrategy : PatchStrategy :=
    if score < 0.7 then .full_regen else .surgical_patch
  let summary :=
    if regions.length = 0 then "No significant differences found."
    else "Found " ++ toString regions.length ++ " differences: " ++
      toString (regions.filter (fun r => r.priority = Priority.high)).length ++ " high, " ++
      toString (regions.filter (fun r => r.priority = Priority.medium)).length ++ " medium, " ++
      toString (regions.filter (fun r => r.priority = Priority.low)).length ++ " low priority."
  { overallScore := score
    regionCount := regions.length
    regions := regions
    summary := summary
    suggestedStrategy := suggestedStrategy }

/-- `categorizeIteration` (`analyzer.ts` lines 112-124).  A `null`
`previousScore` is `none`. -/
def categorizeIteration (currentScore : ℚ) (previousScore : Option ℚ)
    (threshold improvementThreshold : ℚ) : IterationCategory :=
  match previousScore with
  | none => .first
  | some prev =>
    if currentScore ≥ threshold then .achieved
    else if currentScore - prev > improvementThreshold then .improved
    else if currentScore < prev then .regressed
    else if |currentScore - prev| ≤ improvementThreshold then .stalled
    else .stalled

/-- The `history.reduce((best, r) => (r.score > best.score ? r : best),
history[0])` step of `suggestStrategy` (`analyzer.ts` line 168); JavaScript's
`reduce` with an initial accumulator folds over the whole list. -/
def bestFold (history : List IterationRecord) (init : IterationRecord) :
    IterationRecord :=
  history.foldl (fun best r => if r.score > best.score then r else best) init

/-- `bestIteration` of `suggestStrategy` (`analyzer.ts` line 168):
`history.reduce(..., history[0])`; the `fallback` is never reached, since
the reduce is only evaluated when `history` is non-empty. -/
def bestIteration (history : List IterationRecord) (fallback : IterationRecord) :
    IterationRecord :=
  match history with
  | [] => fallback
  | hd :: _ => bestFold history hd

/-- The regression branch of `suggestStrategy` (`analyzer.ts` lines
165-178): when the last recorded score beats the current score, roll back
to the best iteration and flip the strategy used in the last round. -/
def rollbackCheck (currentScore : ℚ) (history : List IterationRecord) :
    Option StrategyRecommendation :=
  match history.getLast? with
  | none => none
  | some lastRecord =>
    if lastRecord.score > currentScore then
      some { strategy :=
               if lastRecord.strategy = PatchStrategy.full_regen then .surgical_patch
               else .full_regen
             reason := "Score regressed - rolling back to best iteration"
             shouldStop := false
             shouldRollback := true
             rollbackTo := some (bestIteration history lastRecord).iteration }
    else none

/-- `suggestStrategy` (`analyzer.ts` lines 126-192).  `history.slice(-3)`
is `history.drop (history.length - 3)`; `history[history.length - 1]` is
`getLast?`.  The interpolated numbers in the `reason` strings are elided
(the claims never inspect `reason`). -/
def suggestStrategy (currentScore : ℚ) (history : List IterationRecord)
    (config : ImugiConfig) : StrategyRecommendation :=
  if currentScore ≥ config.comparison.threshold then
    { strategy := .surgical_patch
      reason := "Target threshold reached"
      shouldStop := true
      stopReason := some .success
      shouldRollback := false }
  else if history.length ≥ config.comparison.maxIterations then
    { strategy := .surgical_patch
      reason := "Maximum iterations reached"
      shouldStop := true
      stopReason := some .max_iterations
      shouldRollback := false }
  else if (history.drop (history.length - 3)).length ≥ 3 ∧
      (history.drop (history.length - 3)).all
        (fun r => r.category = IterationCategory.stalled) then
    { strategy := .surgical_patch
      reason := "Score converged - 3 consecutive iterations without improvement"
      shouldStop := true
      stopReason := some .converged
      shouldRollback := false }
  else
    match rollbackCheck currentScore history with
    | some r => r
    | none =>
      { strategy :=
          if currentScore < config.comparison.patchSwitchThreshold then .full_regen
          else .surgical_patch
        reason := "Strategy chosen from patch switch threshold"
        shouldStop := false
        shouldRollback := false }

/-- `buildIterationRecord` (`analyzer.ts` lines 194-211); the wall-clock
`timestamp` becomes an explicit argument. -/
def buildIterationRecord (iteration : ℕ) (score : ℚ) (strategy : PatchStrategy)
    (filesModified : List String) (elapsedMs : ℕ) (category : IterationCategory)
    (timestamp : ℕ) : IterationRecord :=
  { iteration := iteration
    score := score
    strategy := strategy
    filesModified := filesModified
    elapsedMs := elapsedMs
    category := category
    timestamp := timestamp }

/-! ## `src/core/comparator.ts` -/

/-- The clamp `Math.max(0, Math.min(1, v))` applied to every score the
comparator emits (`comparator.ts` lines 120, 264-272). -/
def clamp01 (v : ℚ) : ℚ := max 0 (min 1 v)

/-- The argument record of `computeCompositeScore`: `ssim` is mandatory,
`layout` and `vision` optional (`comparator.ts` lines 258-262). -/
structure ScoreInputs where
  ssim : ℚ
  layout : Option ℚ := none
  vision : Option ℚ := none
  deriving DecidableEq, Repr, Inhabited

/-- `computeCompositeScore` (`comparator.ts` lines 258-273). -/
def computeCompositeScore (scores : ScoreInputs) : ℚ :=
  match scores.vision, scores.layout with
  | some v, some l => clamp01 (scores.ssim * 0.3 + l * 0.3 + v * 0.4)
  | some v, none => clamp01 (scores.ssim * 0.4 + v * 0.6)
  | none, some l => clamp01 (scores.ssim * 0.5 + l * 0.5)
  | none, none => clamp01 scores.ssim

/-- The SSIM of the single 8×8 window of the two grayscale buffers `a`, `b`
whose top-left corner is `(x, y)`, for row stride `width`: the body of the
doubly nested window loop of `computeSSIM` (`comparator.ts` lines 87-112).
The nested `wy`/`wx` loops accumulate the five sums; the Finset sums below
are those accumulated totals.  Constants: `n = 8·8`,
`c1 = (0.01·255)²`, `c2 = (0.03·255)²`. -/
def windowSSIM (a b : ℕ → ℕ) (width x y : ℕ) : ℚ :=
  let n : ℚ := 64
  let c1 : ℚ := (0.01 * 255) ^ 2
  let c2 : ℚ := (0.03 * 255) ^ 2
  let sumA : ℚ := ∑ wy ∈ Finset.range 8, ∑ wx ∈ Finset.range 8,
    (a ((y + wy) * width + (x + wx)) : ℚ)
  let sumB : ℚ := ∑ wy ∈ Finset.range 8, ∑ wx ∈ Finset.range 8,
    (b ((y + wy) * width + (x + wx)) : ℚ)
  let sumAA : ℚ := ∑ wy ∈ Finset.range 8, ∑ wx ∈ Finset.range 8,
    ((a ((y + wy) * width + (x + wx)) : ℚ)) ^ 2
  let sumBB : ℚ := ∑ wy ∈ Finset.range 8, ∑ wx ∈ Finset.range 8,
    ((b ((y + wy) * width + (x + wx)) : ℚ)) ^ 2
  let sumAB : ℚ := ∑ wy ∈ Finset.range 8, ∑ wx ∈ Finset.range 8,
    (a ((y + wy) * width + (x + wx)) : ℚ) * (b ((y + wy) * width + (x + wx)) : ℚ)
  let meanA := sumA / n
  let meanB := sumB / n
  let varA := sumAA / n - meanA * meanA
  let varB := sumBB / n - meanB * meanB
  let covAB := sumAB / n - meanA * meanB
  let num := (2 * meanA * meanB + c1) * (2 * covAB + c2)
  let den := (meanA * meanA + meanB * meanB + c1) * (varA + varB + c2)
  num / den

/-- The accumulation of `totalSSIM` by the window loops of `computeSSIM`
(`comparator.ts` lines 85-115).  The JavaScript loops run `y` over
`0, 8, …` while `y <= height - 8` and likewise for `x`, i.e. exactly the
anchors `(8·i, 8·j)` with `i < width / 8`, `j < height / 8` (integer
division); a partial trailing window is never visited. -/
def ssimTotal (width height : ℕ) (a b : ℕ → ℕ) : ℚ :=
  (List.range (height / 8)).foldl
    (fun acc j =>
      (List.range (width / 8)).foldl
        (fun acc2 i => acc2 + windowSSIM a b width (8 * i) (8 * j)) acc)
    0

/-- `computeSSIM` (`comparator.ts` lines 65-123), applied to the two
grayscale buffers after `ensureSameDimensions` and the `sharp` grayscale
conversion (decoding and resizing are I/O and sit outside the model).
`windowCount` is incremented once per visited window, so it totals
`(width / 8) * (height / 8)`.  `performanceMs` is wall-clock and is
reported as `0`. -/
def computeSSIM (width height : ℕ) (a b : ℕ → ℕ) : SSIMResult :=
  let windowCount := (width / 8) * (height / 8)
  let mssim : ℚ :=
    if windowCount > 0 then ssimTotal width height a b / windowCount else 1
  { mssim := clamp01 mssim
    performanceMs := 0 }

/-! ### `findDiffRegions` (`comparator.ts` lines 146-224)

The diff image is modelled as its dimensions plus the flat RGBA byte
array produced by `sharp(...).raw().ensureAlpha()`; the loop at lines
160-170 reads the red channel `rawData[(y * width + x) * 4]` of every
pixel and increments the 32×32 grid cell of each pixel brighter than 50,
so each final grid entry is the count of bright pixels in that cell. -/

/-- A decoded diff image (`comparator.ts` lines 150-153). -/
structure DiffImage where
  width : ℕ
  height : ℕ
  rawData : ℕ → ℕ

/-- `gridCols = Math.ceil(width / 32)` (`comparator.ts` line 156). -/
def gridCols (img : DiffImage) : ℕ := (img.width + 31) / 32

/-- `gridRows = Math.ceil(height / 32)` (`comparator.ts` line 157). -/
def gridRows (img : DiffImage) : ℕ := (img.height + 31) / 32

/-- The red channel exceeds the brightness threshold 50 at pixel `(x, y)`
(`comparator.ts` lines 162-164). -/
def brightAt (img : DiffImage) (y x : ℕ) : Prop :=
  50 < img.rawData ((y * img.width + x) * 4)

instance (img : DiffImage) (y x : ℕ) : Decidable (brightAt img y x) :=
  inferInstanceAs (Decidable (_ < _))

/-- The grid cell index `(y / 32) * gridCols + x / 32` of pixel `(x, y)`
(`comparator.ts` lines 165-167). -/
def cellIndex (img : DiffImage) (y x : ℕ) : ℕ :=
  (y / 32) * gridCols img + x / 32

/-- The final value of `grid[c]` after the pixel loop of `findDiffRegions`
(`comparator.ts` lines 160-170): the number of bright pixels whose cell is
`c`. -/
def gridCount (img : DiffImage) (c : ℕ) : ℕ :=
  ((Finset.range img.height ×ˢ Finset.range img.width).filter
    (fun p => brightAt img p.1 p.2 ∧ cellIndex img p.1 p.2 = c)).card

/-- In-bounds 4-neighbours `[[0,1],[0,-1],[1,0],[-1,0]]` of the cell at
`(cx, cy)`, as cell indices (`comparator.ts` lines 194-199). -/
def cellNeighbors (cols rows cx cy : ℕ) : List ℕ :=
  [((cx : ℤ), (cy : ℤ) + 1), ((cx : ℤ), (cy : ℤ) - 1),
   ((cx : ℤ) + 1, (cy : ℤ)), ((cx : ℤ) - 1, (cy : ℤ))].filterMap
    (fun q =>
      if 0 ≤ q.1 ∧ q.1 < (cols : ℤ) ∧ 0 ≤ q.2 ∧ q.2 < (rows : ℤ) then
        some (q.2.toNat * cols + q.1.toNat)
      else none)

/-- The neighbours of `cell` that the flood fill enqueues: in bounds, with a
nonzero grid count, not yet visited (`comparator.ts` lines 194-203). -/
def freshNeighbors (grid : ℕ → ℕ) (cols rows : ℕ) (visited : Finset ℕ)
    (cell : ℕ) : List ℕ :=
  (cellNeighbors cols rows (cell % cols) (cell / cols)).filter
    (fun ni => 0 < grid ni ∧ ni ∉ visited)

/-- The per-component accumulator of the flood fill (`comparator.ts` lines
178-179): bounding box in grid units plus summed bright-pixel count. -/
structure BfsAcc where
  minX : ℕ
  maxX : ℕ
  minY : ℕ
  maxY : ℕ
  total : ℕ
  deriving DecidableEq, Repr

/-- Decoding a mixed-radix cell index: if `u < cols` then
`t * cols + u` has remainder `u` and quotient `t` modulo `cols`. -/
lemma cell_decode {cols t u : ℕ} (h : u < cols) :
    (t * cols + u) % cols = u ∧ (t * cols + u) / cols = t := by
  constructor
  · rw [Nat.mul_comm t cols, Nat.mul_add_mod]
    exact Nat.mod_eq_of_lt h
  · rw [Nat.mul_comm t cols, Nat.mul_add_div (by omega : 0 < cols),
      Nat.div_eq_of_lt h]
    omega

lemma cellNeighbors_lt (cols rows cx cy : ℕ) :
    ∀ n ∈ cellNeighbors cols rows cx cy, n < cols * rows := by
  intro n hn
  simp only [cellNeighbors, List.mem_filterMap] at hn
  obtain ⟨q, _, hf⟩ := hn
  split at hf
  · rename_i hcond
    obtain ⟨h1, h2, h3, h4⟩ := hcond
    injection hf with hf
    subst hf
    have hx : q.1.toNat < cols := by omega
    have hy : q.2.toNat + 1 ≤ rows := by omega
    calc q.2.toNat * cols + q.1.toNat < q.2.toNat * cols + cols :=
          Nat.add_lt_add_left hx _
      _ = (q.2.toNat + 1) * cols := by rw [add_mul, one_mul]
      _ ≤ rows * cols := Nat.mul_le_mul_right _ hy
      _ = cols * rows := Nat.mul_comm _ _
  · exact absurd hf (by simp)

lemma cellNeighbors_nodup (cols rows cx cy : ℕ) :
    (cellNeighbors cols rows cx cy).Nodup := by
  refine List.Nodup.filterMap ?_ ?base
  case base =>
    simp only [List.nodup_cons, List.mem_cons, List.mem_singleton, List.not_mem_nil,
      List.nodup_nil, Prod.mk.injEq, not_or, and_true]
    repeat' apply And.intro
    all_goals first
    | exact not_false
    | omega
  intro a b n ha hb
  simp only [Option.mem_def] at ha hb
  split at ha
  · rename_i hca
    obtain ⟨ha1, ha2, ha3, ha4⟩ := hca
    injection ha with ha
    split at hb
    · rename_i hcb
      obtain ⟨hb1, hb2, hb3, hb4⟩ := hcb
      injection hb with hb
      have hxa : a.1.toNat < cols := by omega
      have hxb : b.1.toNat < cols := by omega
      have e : a.2.toNat * cols + a.1.toNat = b.2.toNat * cols + b.1.toNat := by
        rw [ha, hb]
      have da := cell_decode (t := a.2.toNat) hxa
      have db := cell_decode (t := b.2.toNat) hxb
      have e1 : a.1.toNat = b.1.toNat := by
        rw [← da.1, ← db.1, e]
      have e2 : a.2.toNat = b.2.toNat := by
        rw [← da.2, ← db.2, e]
      have pa1 : a.1 = (a.1.toNat : ℤ) := (Int.toNat_of_nonneg ha1).symm
      have pb1 : b.1 = (b.1.toNat : ℤ) := (Int.toNat_of_nonneg hb1).symm
      have pa2 : a.2 = (a.2.toNat : ℤ) := (Int.toNat_of_nonneg ha3).symm
      have pb2 : b.2 = (b.2.toNat : ℤ) := (Int.toNat_of_nonneg hb3).symm
      have : a.1 = b.1 := by rw [pa1, pb1, e1]
      have h2 : a.2 = b.2 := by rw [pa2, pb2, e2]
      exact Prod.ext this h2
    · exact absurd hb (by simp)
  · exact absurd ha (by simp)

lemma freshNeighbors_nodup (grid : ℕ → ℕ) (cols rows : ℕ) (visited : Finset ℕ)
    (cell : ℕ) : (freshNeighbors grid cols rows visited cell).Nodup :=
  (cellNeighbors_nodup cols rows _ _).filter _

lemma freshNeighbors_mem (grid : ℕ → ℕ) (cols rows : ℕ) (visited : Finset ℕ)
    (cell : ℕ) : ∀ n ∈ freshNeighbors grid cols rows visited cell,
      n < cols * rows ∧ 0 < grid n ∧ n ∉ visited := by
  intro n hn
  simp only [freshNeighbors, List.mem_filter, decide_eq_true_eq] at hn
  exact ⟨cellNeighbors_lt cols rows _ _ n hn.1, hn.2.1, hn.2.2⟩

lemma freshNeighbors_subset_compl (grid : ℕ → ℕ) (cols rows : ℕ)
    (visited : Finset ℕ) (cell : ℕ) :
    (freshNeighbors grid cols rows visited cell).toFinset ⊆
      Finset.range (cols * rows) \ visited := by
  intro n hn
  rw [List.mem_toFinset] at hn
  have h := freshNeighbors_mem grid cols rows visited cell n hn
  rw [Finset.mem_sdiff, Finset.mem_range]
  exact ⟨h.1, h.2.2⟩

/-- Each flood-fill step strictly shrinks the measure
`(unvisited valid cells) * 5 + queue length`. -/
lemma bfs_measure_step (grid : ℕ → ℕ) (cols rows : ℕ) (visited : Finset ℕ)
    (cell : ℕ) (rest : List ℕ) :
    (Finset.range (cols * rows) \
        (visited ∪ (freshNeighbors grid cols rows visited cell).toFinset)).card * 5
      + (rest ++ freshNeighbors grid cols rows visited cell).length
    < (Finset.range (cols * rows) \ visited).card * 5 + (cell :: rest).length := by
  have hsub : (freshNeighbors grid cols rows visited cell).toFinset ⊆
      Finset.range (cols * rows) \ visited :=
    freshNeighbors_subset_compl grid cols rows visited cell
  have hcard : (freshNeighbors grid cols rows visited cell).toFinset.card =
      (freshNeighbors grid cols rows visited cell).length :=
    List.toFinset_card_of_nodup (freshNeighbors_nodup grid cols rows visited cell)
  have hle : (freshNeighbors grid cols rows visited cell).toFinset.card ≤
      (Finset.range (cols * rows) \ visited).card := Finset.card_le_card hsub
  have heq : Finset.range (cols * rows) \
        (visited ∪ (freshNeighbors grid cols rows visited cell).toFinset) =
      (Finset.range (cols * rows) \ visited) \
        (freshNeighbors grid cols rows visited cell).toFinset := by
    ext a
    simp only [Finset.mem_sdiff, Finset.mem_union, Finset.mem_range]
    tauto
  rw [heq, Finset.card_sdiff hsub, List.length_append, List.length_cons]
  omega

/-- The BFS flood fill of `findDiffRegions` (`comparator.ts` lines 180-205):
pop the queue head, fold its coordinates and grid count into the
accumulator, and enqueue (and mark visited) its unvisited in-bounds
neighbours with nonzero counts.  The source checks the four neighbours
sequentially against the growing visited set, but the four neighbour
indices are pairwise distinct, so a single simultaneous filter is the same
set. -/
def bfsLoop (grid : ℕ → ℕ) (cols rows : ℕ) (queue : List ℕ) (visited : Finset ℕ)
    (acc : BfsAcc) : Finset ℕ × BfsAcc :=
  match queue with
  | [] => (visited, acc)
  | cell :: rest =>
    bfsLoop grid cols rows
      (rest ++ freshNeighbors grid cols rows visited cell)
      (visited ∪ (freshNeighbors grid cols rows visited cell).toFinset)
      ⟨min acc.minX (cell % cols), max acc.maxX (cell % cols),
        min acc.minY (cell / cols), max acc.maxY (cell / cols),
        acc.total + grid cell⟩
termination_by (Finset.range (cols * rows) \ visited).card * 5 + queue.length
decreasing_by exact bfs_measure_step grid cols rows visited cell rest

/-- The `DiffRegion` built from one flood-fill component (`comparator.ts`
lines 207-220): bounding box scaled by the grid size 32, clipped to the
image, with `diffIntensity = totalPixels / regionArea` (0 on a degenerate
box) and `pixelCount = totalPixels`. -/
def regionOf (width height : ℕ) (acc : BfsAcc) : DiffRegion :=
  { x := acc.minX * 32
    y := acc.minY * 32
    width := min ((acc.maxX - acc.minX + 1) * 32) (width - acc.minX * 32)
    height := min ((acc.maxY - acc.minY + 1) * 32) (height - acc.minY * 32)
    diffIntensity :=
      if 0 < (acc.maxX - acc.minX + 1) * 32 * ((acc.maxY - acc.minY + 1) * 32)
      then (acc.total : ℚ) /
        (((acc.maxX - acc.minX + 1) * 32 * ((acc.maxY - acc.minY + 1) * 32) : ℕ) : ℚ)
      else 0
    pixelCount := acc.total }

/-- The outer component loop of `findDiffRegions` (`comparator.ts` lines
175-221): scan cell indices in order; for every nonzero unvisited cell run
the flood fill seeded with that cell (visited already containing it, the
accumulator at its initial values `minX = gridCols, maxX = 0,
minY = gridRows, maxY = 0, totalPixels = 0`), discard components below
`minRegionSize`, and append the bounding-box region otherwise. -/
def regionScan (grid : ℕ → ℕ) (cols rows width height minRegionSize : ℕ) :
    List ℕ → Finset ℕ → List DiffRegion → Finset ℕ × List DiffRegion
  | [], visited, regions => (visited, regions)
  | i :: is, visited, regions =>
    if grid i = 0 ∨ i ∈ visited then
      regionScan grid cols rows width height minRegionSize is visited regions
    else if (bfsLoop grid cols rows [i] (insert i visited)
        ⟨cols, 0, rows, 0, 0⟩).2.total < minRegionSize then
      regionScan grid cols rows width height minRegionSize is
        (bfsLoop grid cols rows [i] (insert i visited) ⟨cols, 0, rows, 0, 0⟩).1
        regions
    else
      regionScan grid cols rows width height minRegionSize is
        (bfsLoop grid cols rows [i] (insert i visited) ⟨cols, 0, rows, 0, 0⟩).1
        (regions ++ [regionOf width height
          (bfsLoop grid cols rows [i] (insert i visited) ⟨cols, 0, rows, 0, 0⟩).2])

/-- Bool comparator corresponding to the JavaScript sort callback
`(a, b) => b.diffIntensity - a.diffIntensity` (`comparator.ts` line 223):
`a` sorts before `b` iff `b.diffIntensity ≤ a.diffIntensity`. -/
def diffRegionLe (a b : DiffRegion) : Bool :=
  b.diffIntensity ≤ a.diffIntensity

/-- `findDiffRegions` (`comparator.ts` lines 146-224): grid accumulation,
flood fill over all `gridCols * gridRows` cells, then sort descending by
`diffIntensity`. -/
def findDiffRegions (img : DiffImage) (minRegionSize : ℕ) : List DiffRegion :=
  ((regionScan (gridCount img) (gridCols img) (gridRows img) img.width img.height
      minRegionSize (List.range (gridCols img * gridRows img)) ∅ []).2).mergeSort
    diffRegionLe

/-- `compareImages` (`comparator.ts` lines 275-309), restricted to the
score-carrying fields.  Its inputs are the two aligned grayscale buffers
(after `ensureSameDimensions` and grayscale conversion) and the diff image
produced by the external `pixelmatch` library; heatmap and crops are image
I/O and are elided.  The composite score is computed from the SSIM score
alone: `computeCompositeScore({ ssim: ssimResult.mssim })`, line 293. -/
def compareImages (width height : ℕ) (designGray screenshotGray : ℕ → ℕ)
    (diffImage : DiffImage) : ComparisonResult :=
  let ssimResult := computeSSIM width height designGray screenshotGray
  { ssim := ssimResult
    diffRegions := findDiffRegions diffImage 100
    compositeScore := computeCompositeScore { ssim := ssimResult.mssim } }

/-! ## Helper notions and branch lemmas for the claims -/

/-- The convergence condition `suggestStrategy` tests (`analyzer.ts` lines
151-154): at least three history entries, and the last three all
categorized `stalled`. -/
def lastThreeStalled (history : List IterationRecord) : Prop :=
  3 ≤ history.length ∧
    ∀ r ∈ history.drop (history.length - 3),
      r.category = IterationCategory.stalled

instance (history : List IterationRecord) : Decidable (lastThreeStalled history) :=
  inferInstanceAs (Decidable (_ ∧ _))

lemma stalled_cond_iff (history : List IterationRecord) :
    ((history.drop (history.length - 3)).length ≥ 3 ∧
      (history.drop (history.length - 3)).all
        (fun r => r.category = IterationCategory.stalled) = true)
    ↔ lastThreeStalled history := by
  simp only [lastThreeStalled, List.length_drop, List.all_eq_true,
    decide_eq_true_eq, ge_iff_le]
  constructor
  · rintro ⟨h1, h2⟩
    exact ⟨by omega, h2⟩
  · rintro ⟨h1, h2⟩
    exact ⟨by omega, h2⟩

lemma suggestStrategy_success (s : ℚ) (history : List IterationRecord)
    (config : ImugiConfig) (h : config.comparison.threshold ≤ s) :
    suggestStrategy s history config =
      ⟨.surgical_patch, "Target threshold reached", true, some .success,
        false, none⟩ := by
  rw [suggestStrategy, if_pos h]

lemma suggestStrategy_maxIter (s : ℚ) (history : List IterationRecord)
    (config : ImugiConfig) (h1 : s < config.comparison.threshold)
    (h2 : config.comparison.maxIterations ≤ history.length) :
    suggestStrategy s history config =
      ⟨.surgical_patch, "Maximum iterations reached", true,
        some .max_iterations, false, none⟩ := by
  rw [suggestStrategy, if_neg (not_le.mpr h1), if_pos h2]

lemma suggestStrategy_converged (s : ℚ) (history : List IterationRecord)
    (config : ImugiConfig) (h1 : s < config.comparison.threshold)
    (h2 : history.length < config.comparison.maxIterations)
    (h3 : lastThreeStalled history) :
    suggestStrategy s history config =
      ⟨.surgical_patch,
        "Score converged - 3 consecutive iterations without improvement",
        true, some .converged, false, none⟩ := by
  rw [suggestStrategy, if_neg (not_le.mpr h1), if_neg (not_le.mpr h2),
    if_pos ((stalled_cond_iff history).mpr h3)]

lemma suggestStrategy_no_stop (s : ℚ) (history : List IterationRecord)
    (config : ImugiConfig) (h1 : s < config.comparison.threshold)
    (h2 : history.length < config.comparison.maxIterations)
    (h3 : ¬ lastThreeStalled history) :
    suggestStrategy s history config =
      (match rollbackCheck s history with
       | some r => r
       | none =>
         ⟨if s < config.comparison.patchSwitchThreshold then .full_regen
           else .surgical_patch,
          "Strategy chosen from patch switch threshold", false, none,
          false, none⟩) := by
  rw [suggestStrategy, if_neg (not_le.mpr h1), if_neg (not_le.mpr h2),
    if_neg (fun hc => h3 ((stalled_cond_iff history).mp hc))]

lemma rollbackCheck_none_of_empty (s : ℚ) (history : List IterationRecord)
    (h : history.getLast? = none) : rollbackCheck s history = none := by
  simp only [rollbackCheck, h]

lemma rollbackCheck_none_of_le (s : ℚ) (history : List IterationRecord)
    (lastRecord : IterationRecord) (h : history.getLast? = some lastRecord)
    (hle : lastRecord.score ≤ s) : rollbackCheck s history = none := by
  simp only [rollbackCheck, h]
  rw [if_neg (not_lt.mpr hle)]

lemma rollbackCheck_some (s : ℚ) (history : List IterationRecord)
    (lastRecord : IterationRecord) (h : history.getLast? = some lastRecord)
    (hgt : s < lastRecord.score) :
    rollbackCheck s history =
      some ⟨if lastRecord.strategy = PatchStrategy.full_regen
              then .surgical_patch else .full_regen,
            "Score regressed - rolling back to best iteration", false, none,
            true, some (bestIteration history lastRecord).iteration⟩ := by
  simp only [rollbackCheck, h]
  rw [if_pos hgt]

/-- `b` is the best-scoring entry of `history`, ties broken by first
occurrence: it occurs at an index `i`, no entry scores higher, and every
entry before index `i` scores strictly lower. -/
def IsFirstBest (history : List IterationRecord) (b : IterationRecord) : Prop :=
  ∃ i : ℕ, ∃ hi : i < history.length,
    history.get ⟨i, hi⟩ = b ∧
    (∀ r ∈ history, r.score ≤ b.score) ∧
    ∀ j : ℕ, ∀ hj : j < history.length, j < i →
      (history.get ⟨j, hj⟩).score < b.score

lemma bestFold_spec (l : List IterationRecord) :
    ∀ a : IterationRecord,
      (bestFold l a = a ∧ ∀ r ∈ l, r.score ≤ a.score) ∨
      (∃ i : ℕ, ∃ hi : i < l.length,
        l.get ⟨i, hi⟩ = bestFold l a ∧ a.score < (bestFold l a).score ∧
        (∀ r ∈ l, r.score ≤ (bestFold l a).score) ∧
        ∀ j : ℕ, ∀ hj : j < l.length, j < i →
          (l.get ⟨j, hj⟩).score < (bestFold l a).score) := by
  induction l with
  | nil => intro a; left; exact ⟨rfl, by simp⟩
  | cons b t ih =>
    intro a
    by_cases hba : a.score < b.score
    · have hstep : bestFold (b :: t) a = bestFold t b := by
        simp only [bestFold, List.foldl_cons, if_pos hba]
      rcases ih b with ⟨he, hall⟩ | ⟨i, hi, hget, hlt, hall, hfirst⟩
      · right
        refine ⟨0, by simp, ?_, ?_, ?_, ?_⟩
        · simp [hstep, he]
        · rw [hstep, he]; exact hba
        · intro r hr
          rw [hstep, he]
          rcases List.mem_cons.mp hr with h | h
          · exact le_of_eq (by rw [h])
          · exact hall r h
        · intro j hj hj0; omega
      · right
        refine ⟨i + 1, by simpa using hi, ?_, ?_, ?_, ?_⟩
        · simpa [hstep] using hget
        · rw [hstep]; exact lt_trans hba hlt
        · intro r hr
          rw [hstep]
          rcases List.mem_cons.mp hr with h | h
          · rw [h]; exact le_of_lt hlt
          · exact hall r h
        · intro j hj hjlt
          match j, hj with
          | 0, hj => simpa [hstep] using hlt
          | j' + 1, hj =>
            have := hfirst j' (by simpa using hj) (by omega)
            simpa [hstep] using this
    · have hstep : bestFold (b :: t) a = bestFold t a := by
        simp only [bestFold, List.foldl_cons, if_neg hba]
      rcases ih a with ⟨he, hall⟩ | ⟨i, hi, hget, hlt, hall, hfirst⟩
      · left
        refine ⟨by rw [hstep, he], ?_⟩
        intro r hr
        rcases List.mem_cons.mp hr with h | h
        · rw [h]; exact not_lt.mp hba
        · exact hall r h
      · right
        refine ⟨i + 1, by simpa using hi, ?_, ?_, ?_, ?_⟩
        · simpa [hstep] using hget
        · rw [hstep]; exact hlt
        · intro r hr
          rw [hstep]
          rcases List.mem_cons.mp hr with h | h
          · rw [h]; exact le_of_lt (lt_of_le_of_lt (not_lt.mp hba) hlt)
          · exact hall r h
        · intro j hj hjlt
          match j, hj with
          | 0, hj =>
            rw [hstep]
            simpa using lt_of_le_of_lt (not_lt.mp hba) hlt
          | j' + 1, hj =>
            have := hfirst j' (by simpa using hj) (by omega)
            simpa [hstep] using this

lemma bestIteration_isFirstBest (hd : IterationRecord) (tl : List IterationRecord)
    (fallback : IterationRecord) :
    IsFirstBest (hd :: tl) (bestIteration (hd :: tl) fallback) := by
  have hbi : bestIteration (hd :: tl) fallback = bestFold (hd :: tl) hd := rfl
  rw [hbi]
  rcases bestFold_spec (hd :: tl) hd with ⟨he, hall⟩ | ⟨i, hi, hget, _, hall, hfirst⟩
  · refine ⟨0, by simp, ?_, ?_, ?_⟩
    · simp [he]
    · rw [he]; exact hall
    · intro j hj hj0; omega
  · exact ⟨i, hi, hget, hall, hfirst⟩

lemma rollbackCheck_fields (s : ℚ) (history : List IterationRecord)
    (r : StrategyRecommendation) (h : rollbackCheck s history = some r) :
    r.shouldStop = false ∧ r.shouldRollback = true ∧ r.stopReason = none ∧
    r.rollbackTo.isSome = true := by
  rcases hL : history.getLast? with _ | last
  · rw [rollbackCheck_none_of_empty s history hL] at h
    exact absurd h (by simp)
  · by_cases hgt : s < last.score
    · rw [rollbackCheck_some s history last hL hgt] at h
      injection h with h
      subst h
      exact ⟨rfl, rfl, rfl, rfl⟩
    · rw [rollbackCheck_none_of_le s history last hL (not_lt.mp hgt)] at h
      exact absurd h (by simp)

lemma clamp01_nonneg (v : ℚ) : 0 ≤ clamp01 v := le_max_left 0 _

lemma clamp01_le_one (v : ℚ) : clamp01 v ≤ 1 :=
  max_le (by norm_num) (min_le_left 1 v)

lemma clamp01_eq_self {v : ℚ} (h0 : 0 ≤ v) (h1 : v ≤ 1) : clamp01 v = v := by
  unfold clamp01
  rw [min_eq_right h1, max_eq_right h0]

/-- A sample configuration (the schema defaults of `src/config/schema.ts`):
threshold 0.95, maxIterations 10, improvementThreshold 0.01,
patchSwitchThreshold 0.7. -/
def exampleConfig : ImugiConfig := ⟨⟨0.95, 10, 0.01, 0.7⟩⟩

/-- A sample history record: iteration 1 scored 0.80 using `full_regen`. -/
def exampleRecord : IterationRecord := ⟨1, 0.8, .full_regen, [], 0, .first, 0⟩

/-! ## The claims -/

/-- C1: `suggestStrategy` evaluates its stop conditions in priority order:
score at or above the threshold stops with reason `success` regardless of
history; otherwise a history at least `maxIterations` long stops with
reason `max_iterations`; otherwise three trailing `stalled` entries stop
with reason `converged`; in every other case it does not stop. -/
theorem suggestStrategy_stop_conditions (s : ℚ) (history : List IterationRecord)
    (config : ImugiConfig) :
    (config.comparison.threshold ≤ s →
      (suggestStrategy s history config).shouldStop = true ∧
      (suggestStrategy s history config).stopReason = some StopReason.success) ∧
    (s < config.comparison.threshold →
      config.comparison.maxIterations ≤ history.length →
      (suggestStrategy s history config).shouldStop = true ∧
      (suggestStrategy s history config).stopReason = some StopReason.max_iterations) ∧
    (s < config.comparison.threshold →
      history.length < config.comparison.maxIterations →
      lastThreeStalled history →
      (suggestStrategy s history config).shouldStop = true ∧
      (suggestStrategy s history config).stopReason = some StopReason.converged) ∧
    (s < config.comparison.threshold →
      history.length < config.comparison.maxIterations →
      ¬ lastThreeStalled history →
      (suggestStrategy s history config).shouldStop = false) := by
  refine ⟨fun h => ?_, fun h1 h2 => ?_, fun h1 h2 h3 => ?_, fun h1 h2 h3 => ?_⟩
  · rw [suggestStrategy_success s history config h]
    exact ⟨rfl, rfl⟩
  · rw [suggestStrategy_maxIter s history config h1 h2]
    exact ⟨rfl, rfl⟩
  · rw [suggestStrategy_converged s history config h1 h2 h3]
    exact ⟨rfl, rfl⟩
  · rw [suggestStrategy_no_stop s history config h1 h2 h3]
    rcases hrc : rollbackCheck s history with _ | r
    · simp only [hrc]
    · simp only [hrc]
      exact (rollbackCheck_fields s history r hrc).1

/-- C1 witness: with the default config, score 0.96 stops with `success`,
and score 0.5 with an empty history does not stop. -/
theorem suggestStrategy_stop_conditions_witness :
    ((suggestStrategy 0.96 [] exampleConfig).shouldStop = true ∧
      (suggestStrategy 0.96 [] exampleConfig).stopReason = some StopReason.success) ∧
    (suggestStrategy 0.5 [] exampleConfig).shouldStop = false := by
  constructor
  · exact (suggestStrategy_stop_conditions 0.96 [] exampleConfig).1
      (by norm_num [exampleConfig])
  · exact (suggestStrategy_stop_conditions 0.5 [] exampleConfig).2.2.2
      (by norm_num [exampleConfig]) (by norm_num [exampleConfig])
      (by simp [lastThreeStalled])

/-- C2: when no stop condition fires and the last recorded score strictly
beats the current score, `suggestStrategy` does not stop, requests a
rollback to the iteration number of the best-scoring history entry (ties
broken by first occurrence), and flips the last round's strategy. -/
theorem suggestStrategy_regression_rollback (s : ℚ)
    (history : List IterationRecord) (config : ImugiConfig)
    (lastRecord : IterationRecord)
    (h1 : s < config.comparison.threshold)
    (h2 : history.length < config.comparison.maxIterations)
    (h3 : ¬ lastThreeStalled history)
    (hL : history.getLast? = some lastRecord)
    (hgt : s < lastRecord.score) :
    (suggestStrategy s history config).shouldStop = false ∧
    (suggestStrategy s history config).shouldRollback = true ∧
    (∃ b : IterationRecord, IsFirstBest history b ∧
      (suggestStrategy s history config).rollbackTo = some b.iteration) ∧
    (suggestStrategy s history config).strategy =
      (if lastRecord.strategy = PatchStrategy.full_regen
        then PatchStrategy.surgical_patch else PatchStrategy.full_regen) := by
  rcases history with _ | ⟨hd, tl⟩
  · exact absurd hL (by simp)
  · rw [suggestStrategy_no_stop s (hd :: tl) config h1 h2 h3,
      rollbackCheck_some s (hd :: tl) lastRecord hL hgt]
    exact ⟨rfl, rfl,
      ⟨bestIteration (hd :: tl) lastRecord,
        bestIteration_isFirstBest hd tl lastRecord, rfl⟩, rfl⟩

/-- C2 witness: history `[iteration 1, score 0.80, full_regen]` and current
score 0.75 yield a rollback to iteration 1 with strategy `surgical_patch`. -/
theorem suggestStrategy_regression_rollback_witness :
    (suggestStrategy 0.75 [exampleRecord] exampleConfig).shouldRollback = true ∧
    (suggestStrategy 0.75 [exampleRecord] exampleConfig).rollbackTo = some 1 ∧
    (suggestStrategy 0.75 [exampleRecord] exampleConfig).strategy =
      PatchStrategy.surgical_patch := by
  have h := suggestStrategy_regression_rollback 0.75 [exampleRecord]
    exampleConfig exampleRecord
    (by norm_num [exampleConfig]) (by norm_num [exampleConfig])
    (by simp [lastThreeStalled]) (by simp) (by norm_num [exampleRecord])
  obtain ⟨-, h2, ⟨b, hb, hto⟩, h4⟩ := h
  refine ⟨h2, ?_, ?_⟩
  · obtain ⟨i, hi, hget, -, -⟩ := hb
    have hi0 : i = 0 := by
      simp only [List.length_singleton] at hi
      omega
    subst hi0
    simp only [List.get] at hget
    rw [hto, ← hget]
    rfl
  · rw [h4]
    simp [exampleRecord]

/-- C3: `categorizeIteration` returns `first` exactly when there is no
previous score, and otherwise returns the first match of
achieved > improved > regressed > stalled; moreover in the residual
`stalled` case the gap condition `|current − previous| ≤
improvementThreshold` indeed holds. -/
theorem categorizeIteration_cases (c p t imp : ℚ) :
    categorizeIteration c none t imp = IterationCategory.first ∧
    categorizeIteration c (some p) t imp =
      (if c ≥ t then IterationCategory.achieved
       else if c - p > imp then IterationCategory.improved
       else if c < p then IterationCategory.regressed
       else IterationCategory.stalled) ∧
    (c < t → c - p ≤ imp → p ≤ c → |c - p| ≤ imp) := by
  refine ⟨rfl, ?_, ?_⟩
  · simp only [categorizeIteration]
    split_ifs <;> rfl
  · intro _ hc2 hc3
    rw [abs_of_nonneg (by linarith)]
    linarith

/-- C3 witness: the concrete examples from the claim, plus the gap bound at
`current = previous = 0.8`. -/
theorem categorizeIteration_cases_witness :
    categorizeIteration 0.96 (some 0.8) 0.95 0.01 = IterationCategory.achieved ∧
    categorizeIteration 0.8 (some 0.85) 0.95 0.01 = IterationCategory.regressed ∧
    |(0.8 : ℚ) - 0.8| ≤ 0.01 := by
  refine ⟨?_, ?_, ?_⟩
  · rw [(categorizeIteration_cases 0.96 0.8 0.95 0.01).2.1]
    norm_num
  · rw [(categorizeIteration_cases 0.8 0.85 0.95 0.01).2.1]
    norm_num
  · exact (categorizeIteration_cases 0.8 0.8 0.95 0.01).2.2
      (by norm_num) (by norm_num) (by norm_num)

/-- C4: `computeCompositeScore` is the clamped weighted blend
0.3/0.3/0.4 with both optional signals, 0.4/0.6 with vision only,
0.5/0.5 with layout only, and the clamped SSIM alone otherwise; the result
always lies in [0,1], and the claim's three concrete values hold. -/
theorem computeCompositeScore_spec :
    (∀ s : ScoreInputs,
      0 ≤ computeCompositeScore s ∧ computeCompositeScore s ≤ 1) ∧
    (∀ ssim layout vision : ℚ,
      computeCompositeScore ⟨ssim, some layout, some vision⟩ =
        clamp01 (ssim * 0.3 + layout * 0.3 + vision * 0.4)) ∧
    (∀ ssim vision : ℚ,
      computeCompositeScore ⟨ssim, none, some vision⟩ =
        clamp01 (ssim * 0.4 + vision * 0.6)) ∧
    (∀ ssim layout : ℚ,
      computeCompositeScore ⟨ssim, some layout, none⟩ =
        clamp01 (ssim * 0.5 + layout * 0.5)) ∧
    (∀ ssim : ℚ, computeCompositeScore ⟨ssim, none, none⟩ = clamp01 ssim) ∧
    computeCompositeScore ⟨1, none, none⟩ = 1 ∧
    computeCompositeScore ⟨0, none, some 1⟩ = 0.6 ∧
    computeCompositeScore ⟨1, none, some 0⟩ = 0.4 := by
  refine ⟨fun s => ?_, fun a b c => rfl, fun a b => rfl, fun a b => rfl,
    fun a => rfl, ?_, ?_, ?_⟩
  · rcases s with ⟨ss, l, v⟩
    cases l <;> cases v <;> exact ⟨clamp01_nonneg _, clamp01_le_one _⟩
  · have h : computeCompositeScore ⟨1, none, none⟩ = clamp01 1 := rfl
    rw [h, clamp01_eq_self (by norm_num) (by norm_num)]
  · have h : computeCompositeScore ⟨0, none, some 1⟩ =
        clamp01 (0 * 0.4 + 1 * 0.6) := rfl
    rw [h, clamp01_eq_self (by norm_num) (by norm_num)]
    norm_num
  · have h : computeCompositeScore ⟨1, none, some 0⟩ =
        clamp01 (1 * 0.4 + 0 * 0.6) := rfl
    rw [h, clamp01_eq_self (by norm_num) (by norm_num)]
    norm_num

/-- C6: without an external vision label, regions wider or taller than
200px classify as `position`, else diff intensity above 0.5 as `color`,
else `unknown`; and priority is the fixed function of classification
(`missing`/`extra`/`position` high, `size`/`spacing` medium,
`color`/`font`/`unknown` low). -/
theorem classifyRegion_priority_spec :
    (∀ region : DiffRegion,
      (200 < region.width ∨ 200 < region.height →
        classifyRegion region none = Classification.position) ∧
      (region.width ≤ 200 → region.height ≤ 200 →
        0.5 < region.diffIntensity →
        classifyRegion region none = Classification.color) ∧
      (region.width ≤ 200 → region.height ≤ 200 →
        region.diffIntensity ≤ 0.5 →
        classifyRegion region none = Classification.unknown)) ∧
    assignPriority Classification.missing = Priority.high ∧
    assignPriority Classification.extra = Priority.high ∧
    assignPriority Classification.position = Priority.high ∧
    assignPriority Classification.size = Priority.medium ∧
    assignPriority Classification.spacing = Priority.medium ∧
    assignPriority Classification.color = Priority.low ∧
    assignPriority Classification.font = Priority.low ∧
    assignPriority Classification.unknown = Priority.low := by
  refine ⟨fun region => ⟨fun h => ?_, fun hw hh hi => ?_, fun hw hh hi => ?_⟩,
    rfl, rfl, rfl, rfl, rfl, rfl, rfl, rfl⟩
  · simp only [classifyRegion]
    rw [if_pos h]
  · simp only [classifyRegion]
    rw [if_neg (by omega), if_pos hi]
  · simp only [classifyRegion]
    rw [if_neg (by omega), if_neg (not_lt.mpr hi)]

/-- C6 witness: a 300px-wide region is `position`, a small intense region
is `color`, a small faint region is `unknown`. -/
theorem classifyRegion_priority_spec_witness :
    classifyRegion ⟨0, 0, 300, 10, 0, 0⟩ none = Classification.position ∧
    classifyRegion ⟨0, 0, 10, 10, 0.8, 0⟩ none = Classification.color ∧
    classifyRegion ⟨0, 0, 10, 10, 0.2, 0⟩ none = Classification.unknown :=
  ⟨(classifyRegion_priority_spec.1 _).1 (by norm_num),
   (classifyRegion_priority_spec.1 _).2.1 (by norm_num) (by norm_num) (by norm_num),
   (classifyRegion_priority_spec.1 _).2.2 (by norm_num) (by norm_num) (by norm_num)⟩

/-- C10: every `StrategyRecommendation` returned by `suggestStrategy` is
well-formed: never both stopping and rolling back, `rollbackTo` present
exactly when rolling back, `stopReason` present exactly when stopping, and
every stopping recommendation carries strategy `surgical_patch`. -/
theorem suggestStrategy_wellformed (s : ℚ) (history : List IterationRecord)
    (config : ImugiConfig) :
    ¬((suggestStrategy s history config).shouldStop = true ∧
      (suggestStrategy s history config).shouldRollback = true) ∧
    ((suggestStrategy s history config).rollbackTo.isSome = true ↔
      (suggestStrategy s history config).shouldRollback = true) ∧
    ((suggestStrategy s history config).stopReason.isSome = true ↔
      (suggestStrategy s history config).shouldStop = true) ∧
    ((suggestStrategy s history config).shouldStop = true →
      (suggestStrategy s history config).strategy = PatchStrategy.surgical_patch) := by
  by_cases ht : config.comparison.threshold ≤ s
  · rw [suggestStrategy_success s history config ht]
    simp
  by_cases hm : config.comparison.maxIterations ≤ history.length
  · rw [suggestStrategy_maxIter s history config (not_le.mp ht) hm]
    simp
  by_cases hst : lastThreeStalled history
  · rw [suggestStrategy_converged s history config (not_le.mp ht) (not_le.mp hm) hst]
    simp
  · rw [suggestStrategy_no_stop s history config (not_le.mp ht) (not_le.mp hm) hst]
    rcases hrc : rollbackCheck s history with _ | r
    · simp only [hrc]
      simp
    · obtain ⟨f1, f2, f3, f4⟩ := rollbackCheck_fields s history r hrc
      simp only [hrc]
      simp [f1, f2, f3, f4]

/-- C10 witness: a stopping recommendation carries strategy `surgical_patch`
at score 0.96 with the default config. -/
theorem suggestStrategy_wellformed_witness :
    (suggestStrategy 0.96 [] exampleConfig).strategy = PatchStrategy.surgical_patch := by
  refine (suggestStrategy_wellformed 0.96 [] exampleConfig).2.2.2 ?_
  rw [suggestStrategy_success 0.96 [] exampleConfig (by norm_num [exampleConfig])]

lemma priorityLe_trans : ∀ a b c : AnalyzedRegion, priorityLe a b = true →
    priorityLe b c = true → priorityLe a c = true := by
  intro a b c hab hbc
  simp only [priorityLe, decide_eq_true_eq] at *
  omega

lemma priorityLe_total : ∀ a b : AnalyzedRegion,
    (priorityLe a b || priorityLe b a) = true := by
  intro a b
  simp only [priorityLe, Bool.or_eq_true, decide_eq_true_eq]
  omega

/-- A stable sort does not disturb the relative order of elements that
compare equal: filtering the sorted list by a predicate on which the
comparator is constantly true gives back the filtered input. -/
lemma mergeSort_filter_eq {α : Type} (le : α → α → Bool)
    (htrans : ∀ a b c, le a b = true → le b c = true → le a c = true)
    (htotal : ∀ a b, (le a b || le b a) = true)
    (l : List α) (p : α → Bool)
    (hp : ∀ a b, p a = true → p b = true → le a b = true) :
    (l.mergeSort le).filter p = l.filter p := by
  have h1 : ∀ a ∈ l.filter p, p a = true := fun a ha => List.of_mem_filter ha
  have hpair : (l.filter p).Pairwise (fun a b => le a b = true) :=
    List.pairwise_of_forall_mem_list (fun a ha b hb => hp a b (h1 a ha) (h1 b hb))
  have hstable : List.Sublist (l.filter p) (l.mergeSort le) :=
    List.sublist_mergeSort htrans htotal hpair (List.filter_sublist l)
  have hself : (l.filter p).filter p = l.filter p :=
    List.filter_eq_self.mpr h1
  have hsub2 : List.Sublist (l.filter p) ((l.mergeSort le).filter p) := by
    have h2 := List.Sublist.filter p hstable
    rwa [hself] at h2
  have hlen : ((l.mergeSort le).filter p).length = (l.filter p).length :=
    ((List.mergeSort_perm l le).filter p).length_eq
  exact (List.Sublist.eq_of_length hsub2 hlen.symm).symm

/-- C7: the report's regions are sorted high → medium → low, stably (the
regions of each priority keep the order of the pre-sort analyzed list,
whose region order is the input order), and `suggestedStrategy` is
`full_regen` iff the overall score (vision similarity if available, else
the composite score) is below 0.7. -/
theorem analyzeDifferences_spec (comparison : ComparisonResult)
    (visionAnalysis : Option VisionAnalysis) :
    (analyzeDifferences comparison visionAnalysis).regions.Pairwise
      (fun a b => priorityOrder a.priority ≤ priorityOrder b.priority) ∧
    (∀ p : Priority,
      (analyzeDifferences comparison visionAnalysis).regions.filter
          (fun r => r.priority = p) =
        (analyzedRegions comparison visionAnalysis).filter
          (fun r => r.priority = p)) ∧
    (analyzedRegions comparison visionAnalysis).map (fun r => r.region) =
      comparison.diffRegions ∧
    ((visionAnalysis.map (fun v => v.similarityScore)).getD
        comparison.compositeScore < 0.7 →
      (analyzeDifferences comparison visionAnalysis).suggestedStrategy =
        PatchStrategy.full_regen) ∧
    (0.7 ≤ (visionAnalysis.map (fun v => v.similarityScore)).getD
        comparison.compositeScore →
      (analyzeDifferences comparison visionAnalysis).suggestedStrategy =
        PatchStrategy.surgical_patch) ∧
    (analyzeDifferences comparison visionAnalysis).overallScore =
      (visionAnalysis.map (fun v => v.similarityScore)).getD
        comparison.compositeScore := by
  have hreg : (analyzeDifferences comparison visionAnalysis).regions =
      (analyzedRegions comparison visionAnalysis).mergeSort priorityLe := rfl
  have hsug : (analyzeDifferences comparison visionAnalysis).suggestedStrategy =
      (if (visionAnalysis.map (fun v => v.similarityScore)).getD
          comparison.compositeScore < 0.7
        then PatchStrategy.full_regen else PatchStrategy.surgical_patch) := rfl
  refine ⟨?_, ?_, ?_, ?_, ?_, rfl⟩
  · rw [hreg]
    exact (List.sorted_mergeSort priorityLe_trans priorityLe_total
      (analyzedRegions comparison visionAnalysis)).imp
      (fun hab => by simpa [priorityLe] using hab)
  · intro p
    rw [hreg]
    exact mergeSort_filter_eq priorityLe priorityLe_trans priorityLe_total _ _
      (fun a b ha hb => by
        have ha' : a.priority = p := of_decide_eq_true ha
        have hb' : b.priority = p := of_decide_eq_true hb
        simp [priorityLe, ha', hb'])
  · simp only [analyzedRegions]
    rw [List.map_map]
    exact List.enum_map_snd comparison.diffRegions
  · intro hlt
    rw [hsug, if_pos hlt]
  · intro hge
    rw [hsug, if_neg (not_lt.mpr hge)]

/-- C7 witness: with no vision analysis, a composite score of 0.5 suggests
`full_regen` and a composite score of 0.8 suggests `surgical_patch`. -/
theorem analyzeDifferences_spec_witness :
    (analyzeDifferences ⟨⟨0.5, 0⟩, [], 0.5⟩ none).suggestedStrategy =
      PatchStrategy.full_regen ∧
    (analyzeDifferences ⟨⟨0.8, 0⟩, [], 0.8⟩ none).suggestedStrategy =
      PatchStrategy.surgical_patch :=
  ⟨(analyzeDifferences_spec ⟨⟨0.5, 0⟩, [], 0.5⟩ none).2.2.2.1
      (by norm_num [Option.map_none', Option.getD_none]),
   (analyzeDifferences_spec ⟨⟨0.8, 0⟩, [], 0.8⟩ none).2.2.2.2.1
      (by norm_num [Option.map_none', Option.getD_none])⟩

lemma foldl_add_eq (f : ℕ → ℚ) : ∀ (l : List ℕ) (init : ℚ),
    l.foldl (fun acc x => acc + f x) init = init + (l.map f).sum := by
  intro l
  induction l with
  | nil => intro init; simp
  | cons a t ih =>
    intro init
    simp only [List.foldl_cons, List.map_cons, List.sum_cons, ih, add_assoc]

lemma map_range_sum (f : ℕ → ℚ) (n : ℕ) :
    ((List.range n).map f).sum = ∑ i ∈ Finset.range n, f i := by
  induction n with
  | zero => simp
  | succ m ih =>
    rw [List.range_succ, List.map_append, List.sum_append,
      Finset.sum_range_succ, ih]
    simp

/-- The nested window loops accumulate exactly the double sum of the
per-window SSIM values over all whole 8×8 windows. -/
lemma ssimTotal_eq (w h : ℕ) (a b : ℕ → ℕ) :
    ssimTotal w h a b =
      ∑ j ∈ Finset.range (h / 8), ∑ i ∈ Finset.range (w / 8),
        windowSSIM a b w (8 * i) (8 * j) := by
  unfold ssimTotal
  have hinner : ∀ (j : ℕ) (acc : ℚ),
      (List.range (w / 8)).foldl
          (fun acc2 i => acc2 + windowSSIM a b w (8 * i) (8 * j)) acc =
        acc + ∑ i ∈ Finset.range (w / 8), windowSSIM a b w (8 * i) (8 * j) := by
    intro j acc
    rw [foldl_add_eq (fun i => windowSSIM a b w (8 * i) (8 * j))
      (List.range (w / 8)) acc, map_range_sum]
  rw [List.foldl_ext _
    (fun acc j => acc + ∑ i ∈ Finset.range (w / 8), windowSSIM a b w (8 * i) (8 * j))
    0 (fun acc j _ => hinner j acc)]
  rw [foldl_add_eq (fun j => ∑ i ∈ Finset.range (w / 8),
    windowSSIM a b w (8 * i) (8 * j)) (List.range (h / 8)) 0, map_range_sum,
    zero_add]

/-- C8: `computeSSIM` returns the clamped mean of the per-window SSIM over
the whole non-overlapping 8×8 windows (partial trailing windows dropped),
returns 1 when there are no complete windows, and always lies in [0,1]. -/
theorem computeSSIM_spec (w h : ℕ) (a b : ℕ → ℕ) :
    (computeSSIM w h a b).mssim =
      clamp01 (if (w / 8) * (h / 8) = 0 then 1
        else (∑ j ∈ Finset.range (h / 8), ∑ i ∈ Finset.range (w / 8),
            windowSSIM a b w (8 * i) (8 * j)) / (((w / 8) * (h / 8) : ℕ) : ℚ)) ∧
    (w < 8 ∨ h < 8 → (computeSSIM w h a b).mssim = 1) ∧
    0 ≤ (computeSSIM w h a b).mssim ∧ (computeSSIM w h a b).mssim ≤ 1 := by
  have hm : (computeSSIM w h a b).mssim =
      clamp01 (if 0 < (w / 8) * (h / 8)
        then ssimTotal w h a b / (((w / 8) * (h / 8) : ℕ) : ℚ) else 1) := rfl
  have hzero : ∀ hwh : w < 8 ∨ h < 8, (w / 8) * (h / 8) = 0 := by
    intro hwh
    rcases hwh with hw | hh
    · rw [Nat.div_eq_of_lt hw, Nat.zero_mul]
    · rw [Nat.div_eq_of_lt hh, Nat.mul_zero]
  refine ⟨?_, ?_, ?_, ?_⟩
  · rw [hm, ssimTotal_eq]
    by_cases hc : (w / 8) * (h / 8) = 0
    · rw [if_neg (by omega), if_pos hc]
    · rw [if_pos (by omega), if_neg hc]
  · intro hwh
    have hc := hzero hwh
    rw [hm, if_neg (by omega)]
    exact clamp01_eq_self (by norm_num) (by norm_num)
  · rw [hm]
    exact clamp01_nonneg _
  · rw [hm]
    exact clamp01_le_one _

/-- C8 witness: a 4×4 image has no complete 8×8 window, so the mean SSIM is
defined as 1. -/
theorem computeSSIM_spec_witness :
    (computeSSIM 4 4 (fun _ => 0) (fun _ => 0)).mssim = 1 :=
  (computeSSIM_spec 4 4 (fun _ => 0) (fun _ => 0)).2.1 (Or.inl (by norm_num))

/-- C9: `compareImages` computes its composite score from the SSIM score
alone — the stored `compositeScore` equals `ssim.mssim` exactly; layout and
vision signals never enter at this layer. -/
theorem compareImages_composite_eq_ssim (w h : ℕ)
    (designGray screenshotGray : ℕ → ℕ) (diffImage : DiffImage) :
    (compareImages w h designGray screenshotGray diffImage).compositeScore =
      (compareImages w h designGray screenshotGray diffImage).ssim.mssim := by
  have h1 : (compareImages w h designGray screenshotGray diffImage).compositeScore =
      clamp01 ((computeSSIM w h designGray screenshotGray).mssim) := rfl
  have h2 : (compareImages w h designGray screenshotGray diffImage).ssim.mssim =
      (computeSSIM w h designGray screenshotGray).mssim := rfl
  have h3 : (computeSSIM w h designGray screenshotGray).mssim =
      clamp01 (if 0 < (w / 8) * (h / 8)
        then ssimTotal w h designGray screenshotGray / (((w / 8) * (h / 8) : ℕ) : ℚ)
        else 1) := rfl
  rw [h1, h2, h3]
  exact clamp01_eq_self (clamp01_nonneg _) (clamp01_le_one _)

lemma bfsLoop_nil (grid : ℕ → ℕ) (cols rows : ℕ) (visited : Finset ℕ)
    (acc : BfsAcc) : bfsLoop grid cols rows [] visited acc = (visited, acc) := by
  rw [bfsLoop]

lemma bfsLoop_cons (grid : ℕ → ℕ) (cols rows cell : ℕ) (rest : List ℕ)
    (visited : Finset ℕ) (acc : BfsAcc) :
    bfsLoop grid cols rows (cell :: rest) visited acc =
      bfsLoop grid cols rows
        (rest ++ freshNeighbors grid cols rows visited cell)
        (visited ∪ (freshNeighbors grid cols rows visited cell).toFinset)
        ⟨min acc.minX (cell % cols), max acc.maxX (cell % cols),
          min acc.minY (cell / cols), max acc.maxY (cell / cols),
          acc.total + grid cell⟩ := by
  rw [bfsLoop]

/-- Invariant of the flood fill: starting from any queue of valid, nonzero,
already-visited cells, the run pops some set `D` of cells (containing the
queue, consisting of valid nonzero cells that were either queued or
unvisited), accumulates exactly `∑ c ∈ D, grid c` on top of the incoming
total, and its final bounding box encloses the incoming box and the
coordinates of every popped cell. -/
lemma bfsLoop_spec (grid : ℕ → ℕ) (cols rows : ℕ) :
    ∀ (n : ℕ) (queue : List ℕ) (visited : Finset ℕ) (acc : BfsAcc),
      (Finset.range (cols * rows) \ visited).card * 5 + queue.length ≤ n →
      queue.Nodup →
      (∀ c ∈ queue, c < cols * rows ∧ 0 < grid c ∧ c ∈ visited) →
      ∃ D : Finset ℕ,
        (∀ c ∈ D, c < cols * rows ∧ 0 < grid c) ∧
        (∀ c ∈ queue, c ∈ D) ∧
        (∀ c ∈ D, c ∈ queue ∨ c ∉ visited) ∧
        (bfsLoop grid cols rows queue visited acc).2.total =
          acc.total + ∑ c ∈ D, grid c ∧
        (∀ c ∈ D,
          (bfsLoop grid cols rows queue visited acc).2.minX ≤ c % cols ∧
          c % cols ≤ (bfsLoop grid cols rows queue visited acc).2.maxX ∧
          (bfsLoop grid cols rows queue visited acc).2.minY ≤ c / cols ∧
          c / cols ≤ (bfsLoop grid cols rows queue visited acc).2.maxY) ∧
        (bfsLoop grid cols rows queue visited acc).2.minX ≤ acc.minX ∧
        acc.maxX ≤ (bfsLoop grid cols rows queue visited acc).2.maxX ∧
        (bfsLoop grid cols rows queue visited acc).2.minY ≤ acc.minY ∧
        acc.maxY ≤ (bfsLoop grid cols rows queue visited acc).2.maxY := by
  intro n
  induction n with
  | zero =>
    intro queue visited acc hmeas hnd hq
    have hq0 : queue = [] := by
      cases queue with
      | nil => rfl
      | cons a t => simp [List.length_cons] at hmeas
    subst hq0
    rw [bfsLoop_nil]
    exact ⟨∅, by simp, by simp, by simp, by simp, by simp,
      le_refl _, le_refl _, le_refl _, le_refl _⟩
  | succ n ih =>
    intro queue visited acc hmeas hnd hq
    cases queue with
    | nil =>
      rw [bfsLoop_nil]
      exact ⟨∅, by simp, by simp, by simp, by simp, by simp,
        le_refl _, le_refl _, le_refl _, le_refl _⟩
    | cons cell rest =>
      rw [bfsLoop_cons]
      have hcell := hq cell (List.mem_cons_self cell rest)
      have hnd' := List.nodup_cons.mp hnd
      have hmeas' : (Finset.range (cols * rows) \
            (visited ∪ (freshNeighbors grid cols rows visited cell).toFinset)).card * 5 +
          (rest ++ freshNeighbors grid cols rows visited cell).length ≤ n := by
        have hstep := bfs_measure_step grid cols rows visited cell rest
        have hlen : (cell :: rest).length = rest.length + 1 := by
          simp [List.length_cons]
        omega
      have hndQ : (rest ++ freshNeighbors grid cols rows visited cell).Nodup := by
        refine List.Nodup.append hnd'.2
          (freshNeighbors_nodup grid cols rows visited cell) ?_
        intro a ha haf
        exact (freshNeighbors_mem grid cols rows visited cell a haf).2.2
          (hq a (List.mem_cons_of_mem cell ha)).2.2
      have hqQ : ∀ c ∈ rest ++ freshNeighbors grid cols rows visited cell,
          c < cols * rows ∧ 0 < grid c ∧
          c ∈ visited ∪ (freshNeighbors grid cols rows visited cell).toFinset := by
        intro c hc
        rcases List.mem_append.mp hc with h | h
        · have h3 := hq c (List.mem_cons_of_mem cell h)
          exact ⟨h3.1, h3.2.1, Finset.mem_union_left _ h3.2.2⟩
        · have h3 := freshNeighbors_mem grid cols rows visited cell c h
          exact ⟨h3.1, h3.2.1,
            Finset.mem_union_right _ (List.mem_toFinset.mpr h)⟩
      obtain ⟨D', p1, p2, p3, p4, p5, p6a, p6b, p6c, p6d⟩ :=
        ih (rest ++ freshNeighbors grid cols rows visited cell)
          (visited ∪ (freshNeighbors grid cols rows visited cell).toFinset)
          ⟨min acc.minX (cell % cols), max acc.maxX (cell % cols),
            min acc.minY (cell / cols), max acc.maxY (cell / cols),
            acc.total + grid cell⟩ hmeas' hndQ hqQ
      have hcellD' : cell ∉ D' := by
        intro hc
        rcases p3 cell hc with h | h
        · rcases List.mem_append.mp h with h2 | h2
          · exact hnd'.1 h2
          · exact (freshNeighbors_mem grid cols rows visited cell cell h2).2.2
              hcell.2.2
        · exact h (Finset.mem_union_left _ hcell.2.2)
      refine ⟨insert cell D', ?_, ?_, ?_, ?_, ?_, ?_, ?_, ?_, ?_⟩
      · intro c hc
        rcases Finset.mem_insert.mp hc with h | h
        · subst h; exact ⟨hcell.1, hcell.2.1⟩
        · exact p1 c h
      · intro c hc
        rcases List.mem_cons.mp hc with h | h
        · subst h; exact Finset.mem_insert_self _ _
        · exact Finset.mem_insert_of_mem
            (p2 c (List.mem_append_left _ h))
      · intro c hc
        rcases Finset.mem_insert.mp hc with h | h
        · subst h; exact Or.inl (List.mem_cons_self _ _)
        · rcases p3 c h with h2 | h2
          · rcases List.mem_append.mp h2 with h3 | h3
            · exact Or.inl (List.mem_cons_of_mem _ h3)
            · exact Or.inr (freshNeighbors_mem grid cols rows visited cell c h3).2.2
          · exact Or.inr (fun hv => h2 (Finset.mem_union_left _ hv))
      · rw [p4, Finset.sum_insert hcellD']
        show acc.total + grid cell + ∑ c ∈ D', grid c =
          acc.total + (grid cell + ∑ c ∈ D', grid c)
        omega
      · intro c hc
        rcases Finset.mem_insert.mp hc with h | h
        · subst h
          refine ⟨le_trans p6a (min_le_right _ _), ?_, le_trans p6c (min_le_right _ _), ?_⟩
          · exact le_trans (le_max_right _ _) p6b
          · exact le_trans (le_max_right _ _) p6d
        · exact p5 c h
      · exact le_trans p6a (min_le_left _ _)
      · exact le_trans (le_max_left _ _) p6b
      · exact le_trans p6c (min_le_left _ _)
      · exact le_trans (le_max_left _ _) p6d

/-- Every grid cell holds at most 32·32 = 1024 bright pixels: the pixels of
a cell inject into their offsets inside the cell. -/
lemma gridCount_le (img : DiffImage) (c : ℕ) : gridCount img c ≤ 1024 := by
  classical
  have h : ((Finset.range img.height ×ˢ Finset.range img.width).filter
      (fun p => brightAt img p.1 p.2 ∧ cellIndex img p.1 p.2 = c)).card ≤
      (Finset.range 32 ×ˢ Finset.range 32).card := by
    apply Finset.card_le_card_of_injOn (fun p => (p.1 % 32, p.2 % 32))
    · intro p _
      simp only [Finset.mem_product, Finset.mem_range]
      exact ⟨Nat.mod_lt _ (by omega), Nat.mod_lt _ (by omega)⟩
    · intro p hp q hq he
      simp only [Finset.coe_filter, Set.mem_setOf_eq, Finset.mem_product,
        Finset.mem_range] at hp hq
      obtain ⟨⟨hp1, hp2⟩, _, hpc⟩ := hp
      obtain ⟨⟨hq1, hq2⟩, _, hqc⟩ := hq
      have hmy : p.1 % 32 = q.1 % 32 := congrArg Prod.fst he
      have hmx : p.2 % 32 = q.2 % 32 := congrArg Prod.snd he
      have hcp : p.2 / 32 < gridCols img := by
        unfold gridCols
        omega
      have hcq : q.2 / 32 < gridCols img := by
        unfold gridCols
        omega
      have hdp := cell_decode (t := p.1 / 32) hcp
      have hdq := cell_decode (t := q.1 / 32) hcq
      have hcc : (p.1 / 32) * gridCols img + p.2 / 32 =
          (q.1 / 32) * gridCols img + q.2 / 32 := by
        have e1 : cellIndex img p.1 p.2 = cellIndex img q.1 q.2 := by
          rw [hpc, hqc]
        simpa [cellIndex] using e1
      have e2 : p.2 / 32 = q.2 / 32 := by
        rw [← hdp.1, ← hdq.1, hcc]
      have e3 : p.1 / 32 = q.1 / 32 := by
        rw [← hdp.2, ← hdq.2, hcc]
      exact Prod.ext (by omega) (by omega)
  calc gridCount img c ≤ (Finset.range 32 ×ˢ Finset.range 32).card := h
    _ = 1024 := by simp [Finset.card_product]

/-- A nonzero grid count witnesses a pixel, hence positive dimensions. -/
lemma gridCount_pos_dims (img : DiffImage) (c : ℕ) (h : 0 < gridCount img c) :
    0 < img.width ∧ 0 < img.height := by
  rw [gridCount, Finset.card_pos] at h
  obtain ⟨p, hp⟩ := h
  rw [Finset.mem_filter, Finset.mem_product] at hp
  have h1 := hp.1.1
  have h2 := hp.1.2
  rw [Finset.mem_range] at h1 h2
  omega

/-- Summing grid counts over a set `D` of cells counts exactly the bright
pixels whose cell lies in `D`. -/
lemma sum_gridCount (img : DiffImage) (D : Finset ℕ) :
    ∑ c ∈ D, gridCount img c =
      ((Finset.range img.height ×ˢ Finset.range img.width).filter
        (fun p => brightAt img p.1 p.2 ∧ cellIndex img p.1 p.2 ∈ D)).card := by
  classical
  rw [Finset.card_eq_sum_card_fiberwise
    (f := fun p : ℕ × ℕ => cellIndex img p.1 p.2)
    (fun x hx => (Finset.mem_filter.mp hx).2.2)]
  apply Finset.sum_congr rfl
  intro c hc
  rw [gridCount]
  congr 1
  ext p
  simp only [Finset.mem_filter, Finset.mem_product, Finset.mem_range]
  constructor
  · rintro ⟨hdim, hb, he⟩
    exact ⟨⟨hdim, hb, he ▸ hc⟩, he⟩
  · rintro ⟨⟨hdim, hb, _⟩, he⟩
    exact ⟨hdim, hb, he⟩

/-- A set of cells whose coordinates all lie in a bounding box has at most
as many cells as the box has positions. -/
lemma card_bbox (cols : ℕ) (D : Finset ℕ) (minX maxX minY maxY : ℕ)
    (hbound : ∀ c ∈ D, minX ≤ c % cols ∧ c % cols ≤ maxX ∧
      minY ≤ c / cols ∧ c / cols ≤ maxY) :
    D.card ≤ (maxX - minX + 1) * (maxY - minY + 1) := by
  classical
  refine le_trans (Finset.card_le_card_of_injOn
    (fun c => (c % cols - minX, c / cols - minY))
    (t := Finset.range (maxX - minX + 1) ×ˢ Finset.range (maxY - minY + 1))
    ?_ ?_) (by simp [Finset.card_product])
  · intro c hc
    obtain ⟨h1, h2, h3, h4⟩ := hbound c hc
    simp only [Finset.mem_product, Finset.mem_range]
    omega
  · intro c hc d hd he
    simp only [Finset.mem_coe] at hc hd
    obtain ⟨h1, h2, h3, h4⟩ := hbound c hc
    obtain ⟨h5, h6, h7, h8⟩ := hbound d hd
    have hfst : c % cols - minX = d % cols - minX := congrArg Prod.fst he
    have hsnd : c / cols - minY = d / cols - minY := congrArg Prod.snd he
    have e1 : c % cols = d % cols := by omega
    have e2 : c / cols = d / cols := by omega
    calc c = cols * (c / cols) + c % cols := (Nat.div_add_mod c cols).symm
      _ = cols * (d / cols) + d % cols := by rw [e1, e2]
      _ = d := Nat.div_add_mod d cols

/-- The number of bright pixels inside the rectangle of a `DiffRegion`. -/
def brightRectCount (img : DiffImage) (r : DiffRegion) : ℕ :=
  ((Finset.range img.height ×ˢ Finset.range img.width).filter
    (fun p => brightAt img p.1 p.2 ∧
      r.x ≤ p.2 ∧ p.2 < r.x + r.width ∧ r.y ≤ p.1 ∧ p.1 < r.y + r.height)).card

/-- The invariants `findDiffRegions` guarantees for each emitted region. -/
def GoodRegion (img : DiffImage) (minRegionSize : ℕ) (r : DiffRegion) : Prop :=
  minRegionSize ≤ r.pixelCount ∧ 0 < r.width ∧ 0 < r.height ∧
  0 ≤ r.diffIntensity ∧ r.diffIntensity ≤ 1 ∧
  r.pixelCount ≤ brightRectCount img r

/-- The region built from one accepted flood-fill component satisfies all
the per-region invariants. -/
lemma regionOf_good (img : DiffImage) (minRegionSize : ℕ) (i : ℕ)
    (visited : Finset ℕ) (hi : i < gridCols img * gridRows img)
    (hgz : 0 < gridCount img i)
    (hsize : ¬ (bfsLoop (gridCount img) (gridCols img) (gridRows img) [i]
        (insert i visited) ⟨gridCols img, 0, gridRows img, 0, 0⟩).2.total <
        minRegionSize) :
    GoodRegion img minRegionSize (regionOf img.width img.height
      (bfsLoop (gridCount img) (gridCols img) (gridRows img) [i]
        (insert i visited) ⟨gridCols img, 0, gridRows img, 0, 0⟩).2) := by
  obtain ⟨D, p1, p2, p3, p4, p5, p6a, p6b, p6c, p6d⟩ :=
    bfsLoop_spec (gridCount img) (gridCols img) (gridRows img)
      ((Finset.range (gridCols img * gridRows img) \ (insert i visited)).card * 5 + 1)
      [i] (insert i visited) ⟨gridCols img, 0, gridRows img, 0, 0⟩
      (by simp) (List.nodup_singleton i)
      (by
        intro c hc
        rw [List.mem_singleton] at hc
        rw [hc]
        exact ⟨hi, hgz, Finset.mem_insert_self i visited⟩)
  set acc := (bfsLoop (gridCount img) (gridCols img) (gridRows img) [i]
      (insert i visited) ⟨gridCols img, 0, gridRows img, 0, 0⟩).2 with hacc
  have hiD : i ∈ D := p2 i (List.mem_singleton_self i)
  have htotal : acc.total = ∑ c ∈ D, gridCount img c := by
    simpa using p4
  have hdims := gridCount_pos_dims img i hgz
  have hw := hdims.1
  have hh := hdims.2
  have hcolspos : 0 < gridCols img := by
    unfold gridCols
    omega
  have hbi := p5 i hiD
  have hminXlt : acc.minX < gridCols img :=
    lt_of_le_of_lt hbi.1 (Nat.mod_lt i hcolspos)
  have hidiv : i / gridCols img < gridRows img := by
    rw [Nat.div_lt_iff_lt_mul hcolspos, Nat.mul_comm]
    exact hi
  have hminYlt : acc.minY < gridRows img :=
    lt_of_le_of_lt hbi.2.2.1 hidiv
  have hxlt : acc.minX * 32 < img.width := by
    have h := hminXlt
    unfold gridCols at h
    omega
  have hylt : acc.minY * 32 < img.height := by
    have h := hminYlt
    unfold gridRows at h
    omega
  have hApos : 0 < (acc.maxX - acc.minX + 1) * 32 *
      ((acc.maxY - acc.minY + 1) * 32) :=
    Nat.mul_pos (by omega) (by omega)
  have hDcard := card_bbox (gridCols img) D acc.minX acc.maxX acc.minY acc.maxY p5
  have htle : acc.total ≤ (acc.maxX - acc.minX + 1) * 32 *
      ((acc.maxY - acc.minY + 1) * 32) := by
    calc acc.total = ∑ c ∈ D, gridCount img c := htotal
      _ ≤ ∑ _c ∈ D, 1024 := Finset.sum_le_sum (fun c _ => gridCount_le img c)
      _ = D.card * 1024 := by rw [Finset.sum_const, smul_eq_mul]
      _ ≤ (acc.maxX - acc.minX + 1) * (acc.maxY - acc.minY + 1) * 1024 :=
          Nat.mul_le_mul_right _ hDcard
      _ = (acc.maxX - acc.minX + 1) * 32 * ((acc.maxY - acc.minY + 1) * 32) := by
          ring
  have hdi : (regionOf img.width img.height acc).diffIntensity =
      (acc.total : ℚ) / (((acc.maxX - acc.minX + 1) * 32 *
        ((acc.maxY - acc.minY + 1) * 32) : ℕ) : ℚ) := by
    simp only [regionOf]
    rw [if_pos hApos]
  have hsub : ((Finset.range img.height ×ˢ Finset.range img.width).filter
      (fun p => brightAt img p.1 p.2 ∧ cellIndex img p.1 p.2 ∈ D)) ⊆
      ((Finset.range img.height ×ˢ Finset.range img.width).filter
      (fun p => brightAt img p.1 p.2 ∧
        (regionOf img.width img.height acc).x ≤ p.2 ∧
        p.2 < (regionOf img.width img.height acc).x +
          (regionOf img.width img.height acc).width ∧
        (regionOf img.width img.height acc).y ≤ p.1 ∧
        p.1 < (regionOf img.width img.height acc).y +
          (regionOf img.width img.height acc).height)) := by
    intro p hp
    rw [Finset.mem_filter, Finset.mem_product, Finset.mem_range,
      Finset.mem_range] at hp
    rw [Finset.mem_filter, Finset.mem_product, Finset.mem_range,
      Finset.mem_range]
    obtain ⟨⟨hy, hx⟩, hb, hcD⟩ := hp
    refine ⟨⟨hy, hx⟩, hb, ?_⟩
    have hxdiv : p.2 / 32 < gridCols img := by
      unfold gridCols
      omega
    have hdec := cell_decode (t := p.1 / 32) hxdiv
    have hbc := p5 _ hcD
    rw [cellIndex] at hbc
    rw [hdec.1, hdec.2] at hbc
    obtain ⟨hb1, hb2, hb3, hb4⟩ := hbc
    simp only [regionOf]
    refine ⟨by omega, by omega, by omega, by omega⟩
  unfold GoodRegion
  refine ⟨?_, ?_, ?_, ?_, ?_, ?_⟩
  · simpa [regionOf] using not_lt.mp hsize
  · simp only [regionOf]
    rw [lt_min_iff]
    exact ⟨by omega, by omega⟩
  · simp only [regionOf]
    rw [lt_min_iff]
    exact ⟨by omega, by omega⟩
  · rw [hdi]
    exact div_nonneg (Nat.cast_nonneg _) (Nat.cast_nonneg _)
  · rw [hdi, div_le_one (by exact_mod_cast hApos)]
    exact_mod_cast htle
  · calc (regionOf img.width img.height acc).pixelCount = acc.total := rfl
      _ = ∑ c ∈ D, gridCount img c := htotal
      _ = ((Finset.range img.height ×ˢ Finset.range img.width).filter
            (fun p => brightAt img p.1 p.2 ∧ cellIndex img p.1 p.2 ∈ D)).card :=
          sum_gridCount img D
      _ ≤ _ := Finset.card_le_card hsub
      _ = brightRectCount img (regionOf img.width img.height acc) := rfl

/-- Every region in the output of the component scan satisfies the
per-region invariants, provided the already-collected ones do. -/
lemma regionScan_good (img : DiffImage) (minRegionSize : ℕ) :
    ∀ (is : List ℕ) (visited : Finset ℕ) (regions : List DiffRegion),
      (∀ i ∈ is, i < gridCols img * gridRows img) →
      (∀ r ∈ regions, GoodRegion img minRegionSize r) →
      ∀ r ∈ (regionScan (gridCount img) (gridCols img) (gridRows img)
          img.width img.height minRegionSize is visited regions).2,
        GoodRegion img minRegionSize r := by
  intro is
  induction is with
  | nil =>
    intro visited regions _ hgood r hr
    simp only [regionScan] at hr
    exact hgood r hr
  | cons i is ih =>
    intro visited regions hvalid hgood r hr
    simp only [regionScan] at hr
    by_cases hskip : gridCount img i = 0 ∨ i ∈ visited
    · rw [if_pos hskip] at hr
      exact ih visited regions
        (fun j hj => hvalid j (List.mem_cons_of_mem i hj)) hgood r hr
    · rw [if_neg hskip] at hr
      push_neg at hskip
      by_cases hsmall : (bfsLoop (gridCount img) (gridCols img) (gridRows img)
          [i] (insert i visited) ⟨gridCols img, 0, gridRows img, 0, 0⟩).2.total <
          minRegionSize
      · rw [if_pos hsmall] at hr
        exact ih _ regions
          (fun j hj => hvalid j (List.mem_cons_of_mem i hj)) hgood r hr
      · rw [if_neg hsmall] at hr
        refine ih _ _ (fun j hj => hvalid j (List.mem_cons_of_mem i hj)) ?_ r hr
        intro q hq
        rcases List.mem_append.mp hq with h | h
        · exact hgood q h
        · rw [List.mem_singleton] at h
          subst h
          exact regionOf_good img minRegionSize i visited
            (hvalid i (List.mem_cons_self i is))
            (Nat.pos_of_ne_zero hskip.1) hsmall

lemma diffRegionLe_trans : ∀ a b c : DiffRegion, diffRegionLe a b = true →
    diffRegionLe b c = true → diffRegionLe a c = true := by
  intro a b c hab hbc
  simp only [diffRegionLe, decide_eq_true_eq] at *
  exact le_trans hbc hab

lemma diffRegionLe_total : ∀ a b : DiffRegion,
    (diffRegionLe a b || diffRegionLe b a) = true := by
  intro a b
  simp only [diffRegionLe, Bool.or_eq_true, decide_eq_true_eq]
  exact le_total b.diffIntensity a.diffIntensity

/-- C5: the output of `findDiffRegions` is sorted descending by
`diffIntensity`, and every emitted region has `pixelCount ≥ minRegionSize`,
positive width and height, `diffIntensity ∈ [0,1]`, and a `pixelCount` that
counts at most the pixels exceeding the brightness threshold inside its
rectangle — never the full bounding-box area. -/
theorem findDiffRegions_invariants (img : DiffImage) (minRegionSize : ℕ) :
    (findDiffRegions img minRegionSize).Pairwise
      (fun a b => b.diffIntensity ≤ a.diffIntensity) ∧
    List.Forall (fun r =>
      minRegionSize ≤ r.pixelCount ∧ 0 < r.width ∧ 0 < r.height ∧
      0 ≤ r.diffIntensity ∧ r.diffIntensity ≤ 1 ∧
      r.pixelCount ≤ brightRectCount img r)
      (findDiffRegions img minRegionSize) := by
  have hfd : findDiffRegions img minRegionSize =
      ((regionScan (gridCount img) (gridCols img) (gridRows img) img.width
        img.height minRegionSize
        (List.range (gridCols img * gridRows img)) ∅ []).2).mergeSort
        diffRegionLe := rfl
  constructor
  · rw [hfd]
    exact (List.sorted_mergeSort diffRegionLe_trans diffRegionLe_total
      ((regionScan (gridCount img) (gridCols img) (gridRows img) img.width
        img.height minRegionSize
        (List.range (gridCols img * gridRows img)) ∅ []).2)).imp
      (fun hab => by simpa [diffRegionLe] using hab)
  · rw [List.forall_iff_forall_mem]
    intro r hr
    rw [hfd] at hr
    have hr' : r ∈ (regionScan (gridCount img) (gridCols img) (gridRows img)
        img.width img.height minRegionSize
        (List.range (gridCols img * gridRows img)) ∅ []).2 :=
      (List.mergeSort_perm _ diffRegionLe).mem_iff.mp hr
    exact regionScan_good img minRegionSize
      (List.range (gridCols img * gridRows img)) ∅ []
      (fun j hj => List.mem_range.mp hj) (by simp) r hr'

end Imugi
